import Mathlib

/- Shallow embedding of the stochastic parameter algebra in
`imgaug/parameters.py`: constructor normalization of heterogeneous
arguments, the Clip / Sigmoid transforms, the IterativeNoiseAggregator
loop, and the SimplexNoise / FrequencyNoise 2D noise generators.

Conventions.
* Python numbers are modelled as `ℚ` / `ℤ` in constructor logic (where the
  source only stores and compares them) and as `ℝ` in sampling arithmetic.
* 2D sample arrays are total functions `ℕ → ℕ → ℝ`; only indices inside
  the tracked `(H, W)` window are meaningful.
* Failing Python code (assert, NameError, raise) is an `Except` error.
  An IEEE division by zero producing non-numbers (NaN) is modelled as an
  `Option` that is `none`.
* External collaborators whose implementation is not under `src/` (the
  OpenSimplex generator, `ia.imresize_single_image`, the seeded random
  source, `np.fft.ifft2`) enter as explicit function arguments; their
  contracts are modelled from the spec where marked. -/

/-- Values a heterogeneous numeric constructor argument can take in the
source: a single number, a tuple, a list, or a nested
`StochasticParameter` (represented by an abstract id). -/
inductive PyArg : Type where
  | num (v : ℚ)
  | tup (xs : List ℚ)
  | list (xs : List ℚ)
  | param (id : ℕ)
  deriving DecidableEq

/-- Integer-valued variant of `PyArg`, used where the source checks
`ia.is_single_integer`. -/
inductive PyIntArg : Type where
  | int (v : ℤ)
  | tup (xs : List ℤ)
  | list (xs : List ℤ)
  | param (id : ℕ)
  deriving DecidableEq

/-- Errors raised while a parameter object is constructed. -/
inductive InitError : Type where
  | assertionError
  | nameError
  | typeError
  deriving DecidableEq

/-- Errors raised while drawing samples. -/
inductive SampleError : Type where
  | shapeError
  | assertionError
  deriving DecidableEq

/-- Canonical child parameters produced by constructor normalization. -/
inductive SParam (α : Type) : Type where
  | Deterministic (value : α)
  | Uniform (a b : α)
  | DiscreteUniform (a b : α)
  | Choice (xs : List α)
  | Other (id : ℕ)
  deriving DecidableEq

/-- Embedding of the normalization of `lam` in `Poisson.__init__`
(src/imgaug/parameters.py lines 265-278): a number becomes
`Deterministic`, a 2-tuple becomes `Uniform`, a list becomes `Choice`,
and a nested parameter is kept as is. -/
def poissonInitLam : PyArg → Except InitError (SParam ℚ)
  | .num v => .ok (.Deterministic v)
  | .tup xs =>
    match xs with
    | [a, b] => .ok (.Uniform a b)
    | _ => .error .assertionError
  | .list xs => .ok (.Choice xs)
  | .param i => .ok (.Other i)

/-- Embedding of the normalization of `size_px_max` in
`FrequencyNoise.__init__` (src/imgaug/parameters.py lines 1405-1420).
The third branch of the source reads `elif ia.is_iterable(sigmoid_thresh):`
where `sigmoid_thresh` is an undefined name (left over from the deleted
commented-out SimplexNoise class above it); evaluating that guard raises
`NameError`, so every argument that is neither a single integer nor a
tuple fails before the later branches can run. -/
def frequencyNoiseInitSizePxMax : PyIntArg → Except InitError (SParam ℤ)
  | .int v =>
    if 1 ≤ v ∧ v ≤ 10000 then .ok (.Deterministic v) else .error .assertionError
  | .tup xs =>
    match xs with
    | [a, b] =>
      if (1 ≤ a ∧ a ≤ 10000) ∧ (1 ≤ b ∧ b ≤ 10000) then .ok (.DiscreteUniform a b)
      else .error .assertionError
    | _ => .error .assertionError
  | .list _ => .error .nameError
  | .param _ => .error .nameError

/-- Embedding of the normalization of `iterations` in
`IterativeNoiseAggregator.__init__` (src/imgaug/parameters.py lines
812-831). The single-integer branch asserts `1 <= iterations <= 1000`,
while the iterable branch asserts endpoint bounds up to 10000. A Python
list also satisfies `ia.is_iterable`, so a list takes the same
two-element iterable branch as a tuple (the later `isinstance(· , list)`
branch is unreachable). -/
def inaInitIterations : PyIntArg → Except InitError (SParam ℤ)
  | .int v =>
    if 1 ≤ v ∧ v ≤ 1000 then .ok (.Deterministic v) else .error .assertionError
  | .tup xs =>
    match xs with
    | [a, b] =>
      if (1 ≤ a ∧ a ≤ 10000) ∧ (1 ≤ b ∧ b ≤ 10000) then .ok (.DiscreteUniform a b)
      else .error .assertionError
    | _ => .error .assertionError
  | .list xs =>
    match xs with
    | [a, b] =>
      if (1 ≤ a ∧ a ≤ 10000) ∧ (1 ≤ b ∧ b ≤ 10000) then .ok (.DiscreteUniform a b)
      else .error .assertionError
    | _ => .error .assertionError
  | .param i => .ok (.Other i)

/-- Normalization of `size_percent` in `FromLowerResolution.__init__`
(src/imgaug/parameters.py lines 582-593): number becomes `Deterministic`,
an iterable (tuple or list) must have length 2 and becomes `Uniform`, a
nested parameter is kept. -/
def fromLowerResolutionSizePercent : PyArg → Except InitError (SParam ℚ)
  | .num v => .ok (.Deterministic v)
  | .tup xs =>
    match xs with
    | [a, b] => .ok (.Uniform a b)
    | _ => .error .assertionError
  | .list xs =>
    match xs with
    | [a, b] => .ok (.Uniform a b)
    | _ => .error .assertionError
  | .param i => .ok (.Other i)

/-- Normalization of `size_px` in `FromLowerResolution.__init__`
(src/imgaug/parameters.py lines 594-605): integer becomes
`Deterministic`, an iterable of length 2 becomes `DiscreteUniform`, a
nested parameter is kept. -/
def fromLowerResolutionSizePx : PyIntArg → Except InitError (SParam ℤ)
  | .int v => .ok (.Deterministic v)
  | .tup xs =>
    match xs with
    | [a, b] => .ok (.DiscreteUniform a b)
    | _ => .error .assertionError
  | .list xs =>
    match xs with
    | [a, b] => .ok (.DiscreteUniform a b)
    | _ => .error .assertionError
  | .param i => .ok (.Other i)

/-- The resolved size specification stored by `FromLowerResolution`. -/
inductive SizeSpec : Type where
  | percent (p : SParam ℚ)
  | px (p : SParam ℤ)
  deriving DecidableEq

/-- Embedding of `FromLowerResolution.__init__` (src/imgaug/parameters.py
lines 577-616): `assert size_percent is not None or size_px is not None`
fails only when both are absent; when `size_percent` is present it is
normalized and `size_px` is ignored, otherwise `size_px` is normalized. -/
def fromLowerResolutionInit :
    Option PyArg → Option PyIntArg → Except InitError SizeSpec
  | none, none => .error .assertionError
  | some sp, _ => (fromLowerResolutionSizePercent sp).map SizeSpec.percent
  | none, some sx => (fromLowerResolutionSizePx sx).map SizeSpec.px

/-- The aggregation method string compared against in the source. -/
def strAvg : String := "avg"

/-- The aggregation method string for the elementwise minimum. -/
def strMin : String := "min"

/-- The aggregation method string for the elementwise maximum. -/
def strMax : String := "max"

/-- A default interpolation method name, used in concrete instances. -/
def strNearest : String := "nearest"

/-- One step of the aggregation loop body of
`IterativeNoiseAggregator._draw_samples` (src/imgaug/parameters.py lines
856-869): avg accumulates, min and max replace the accumulator by the
draw on the first iteration and take the elementwise extremum afterwards.
Any method string other than avg and min falls into the max branch, as in
the else-clause of the source. -/
noncomputable def inaCombine (method : String) (i : ℕ)
    (result draw : ℕ → ℕ → ℝ) : ℕ → ℕ → ℝ :=
  if method = strAvg then fun y x => result y x + draw y x
  else if method = strMin then
    (if i = 0 then draw else fun y x => min (result y x) (draw y x))
  else
    (if i = 0 then draw else fun y x => max (result y x) (draw y x))

/-- The aggregation loop of `IterativeNoiseAggregator._draw_samples`,
starting from `np.zeros((h, w), dtype=np.float32)` and running the body
once per iteration; `draws i` is the child draw of iteration `i` (seeded
by the source with `seed + 2 + i`). -/
noncomputable def inaLoop (method : String) (draws : ℕ → ℕ → ℕ → ℝ) :
    ℕ → ℕ → ℕ → ℝ
  | 0 => fun _ _ => 0
  | n + 1 => inaCombine method n (inaLoop method draws n) (draws n)

/-- Embedding of `IterativeNoiseAggregator._draw_samples`
(src/imgaug/parameters.py lines 846-874): asserts a 2D requested size,
asserts a positive iteration count, runs the aggregation loop, and for
avg divides by the iteration count at the end. The sampled
`aggregation_method`, the sampled `iterations` and the per-iteration
child draws are inputs (the source obtains them from child parameters
and derived seeds). -/
noncomputable def inaDrawSamples (method : String) (iterations : ℕ)
    (draws : ℕ → ℕ → ℕ → ℝ) (size : List ℕ) :
    Except SampleError (ℕ → ℕ → ℝ) :=
  match size with
  | [_, _] =>
    if iterations = 0 then .error .assertionError
    else if method = strAvg then
      .ok (fun y x => inaLoop method draws iterations y x / iterations)
    else .ok (inaLoop method draws iterations)
  | _ => .error .shapeError

/-- Type of the external 2D resize primitive `ia.imresize_single_image`:
interpolation method, target height and width, one uint8 input channel,
and the resulting pixel lookup. -/
abbrev ResizeFn : Type := String → ℕ → ℕ → (ℕ → ℕ → ℕ) → ℕ → ℕ → ℕ

/-- Modelled from the spec: the external resize primitive of section 6
(implemented by `ia.imresize_single_image`, repository code that is not
under `src/`) returns a uint8 image, so every output pixel is at most
255. -/
def ResizeUint8 (resize : ResizeFn) : Prop :=
  ∀ m h w img y x, resize m h w img y x ≤ 255

/-- Modelled from the spec: `OpenSimplex.noise2d` (repository module
`imgaug/external/opensimplex.py`, which is not under `src/`) produces
values in the native range [-0.5, 0.5] stated in section 4.6 of the
spec. `noise2d y x` is the generator output at the integer grid
coordinates, for the seed fixed by the enclosing call. -/
def SimplexRange (noise2d : ℕ → ℕ → ℝ) : Prop :=
  ∀ y x, -(1 / 2 : ℝ) ≤ noise2d y x ∧ noise2d y x ≤ 1 / 2

/-- Embedding of `SimplexNoise._draw_samples_iteration`
(src/imgaug/parameters.py lines 1278-1310): downscale `(h, w)` so the
longer side is at most the sampled `spm` with a floor of 1 pixel per
side (the float computation `int(h * (size_px_max / maxlen))` is
modelled as floor division), fill the low-resolution grid from the
simplex generator, remap by `(noise + 0.5) / 2`, and when the
low-resolution shape differs from `(h, w)` convert to uint8, upscale
with the external primitive and map back into [0, 1] by dividing by
255. -/
noncomputable def simplexIteration (resize : ResizeFn) (noise2d : ℕ → ℕ → ℝ)
    (method : String) (h w spm : ℕ) : ℕ → ℕ → ℝ :=
  let maxlen := max h w
  let hsmall := max (if spm < maxlen then h * spm / maxlen else h) 1
  let wsmall := max (if spm < maxlen then w * spm / maxlen else w) 1
  let noise01 : ℕ → ℕ → ℝ := fun y x => (noise2d y x + 1 / 2) / 2
  if hsmall = h ∧ wsmall = w then noise01
  else fun y x =>
    (resize method h w (fun yy xx => ⌊noise01 yy xx * 255⌋₊) y x : ℝ) / 255

/-- Embedding of `SimplexNoise._draw_samples` (src/imgaug/parameters.py
lines 1250-1276): asserts a 2D requested size, then runs the aggregation
skeleton with the hardcoded `iterations = 1` and
`aggregation_method = "max"` over the single iteration draw; the sampled
upscale method is an input. -/
noncomputable def simplexNoiseDraw (resize : ResizeFn) (noise2d : ℕ → ℕ → ℝ)
    (method : String) (size : List ℕ) (spm : ℕ) :
    Except SampleError (ℕ → ℕ → ℝ) :=
  match size with
  | [h, w] =>
    .ok (inaLoop strMax (fun _ => simplexIteration resize noise2d method h w spm) 1)
  | _ => .error .shapeError

/-- The magnitude-like uniform field of `FrequencyNoise._draw_samples`
(src/imgaug/parameters.py lines 1460 and 1463): `rand1 y x` is the
uniform draw in [0, 1) at cell `(y, x)`, which the source multiplies by
`max(h_small, w_small) ** 2`. -/
noncomputable def freqR (hs ws : ℕ) (rand1 : ℕ → ℕ → ℝ) (y x : ℕ) : ℝ :=
  rand1 y x * ((max hs ws : ℕ) : ℝ) ^ 2

/-- The phase field of `FrequencyNoise._draw_samples` (lines 1461 and
1464): a uniform draw in [0, 1) scaled by `2 * np.pi`. -/
noncomputable def freqA (rand2 : ℕ → ℕ → ℝ) (y x : ℕ) : ℝ :=
  rand2 y x * 2 * Real.pi

/-- Line 1466 of the source: `wn_r = wn_r * np.cos(wn_a)`. -/
noncomputable def freqReal (hs ws : ℕ) (rand1 rand2 : ℕ → ℕ → ℝ) (y x : ℕ) : ℝ :=
  freqR hs ws rand1 y x * Real.cos (freqA rand2 y x)

/-- Line 1467 of the source: `wn_a = wn_r * np.sin(wn_a)`. At this point
`wn_r` was already overwritten by line 1466, so the factor is the updated
value `freqReal`, not the original magnitude `freqR`. -/
noncomputable def freqImag (hs ws : ℕ) (rand1 rand2 : ℕ → ℕ → ℝ) (y x : ℕ) : ℝ :=
  freqReal hs ws rand1 rand2 y x * Real.sin (freqA rand2 y x)

/-- Embedding of `FrequencyNoise._create_distance_matrix`
(src/imgaug/parameters.py lines 1520-1526): the wrapped distance from the
zero frequency, `sqrt(min(y, h - y) ^ 2 + min(x, w - x) ^ 2)`. -/
noncomputable def freqDist (hs ws y x : ℕ) : ℝ :=
  Real.sqrt (((min y (hs - y) : ℕ) : ℝ) ^ 2 + ((min x (ws - x) : ℕ) : ℝ) ^ 2)

/-- Lines 1472-1475 of the source: set `f[0, 0] = 1`, raise the matrix to
the sampled exponent, then zero the `[0, 0]` entry of the scale; the net
per-cell effect is 0 at the origin and the distance raised to the
exponent elsewhere. -/
noncomputable def freqScale (hs ws : ℕ) (e : ℝ) (y x : ℕ) : ℝ :=
  if y = 0 ∧ x = 0 then 0 else freqDist hs ws y x ^ e

/-- Lines 1476-1501 of the source: the scaled real and imaginary
components assembled into the complex spectrum `wn_freqs_mul`. -/
noncomputable def freqSpectrum (hs ws : ℕ) (rand1 rand2 : ℕ → ℕ → ℝ) (e : ℝ)
    (u v : ℕ) : ℂ :=
  { re := freqReal hs ws rand1 rand2 u v * freqScale hs ws e u v
    im := freqImag hs ws rand1 rand2 u v * freqScale hs ws e u v }

/-- Modelled from the spec: the real part of the inverse 2D discrete
Fourier transform, the external numeric primitive `np.fft.ifft2` of
section 9 of the spec, in its standard definition. -/
noncomputable def ifft2Re (hs ws : ℕ) (F : ℕ → ℕ → ℂ) (y x : ℕ) : ℝ :=
  ((1 / ((hs : ℂ) * (ws : ℂ))) *
    ∑ u ∈ Finset.range hs, ∑ v ∈ Finset.range ws,
      F u v * Complex.exp (2 * Real.pi * Complex.I *
        (((u : ℂ) * (y : ℂ)) / (hs : ℂ) + ((v : ℂ) * (x : ℂ)) / (ws : ℂ)))).re

/-- Line 1503 of the source: the real part of the inverse FFT of the
spectrum, over the working grid. -/
noncomputable def freqWnInv (hs ws : ℕ) (rand1 rand2 : ℕ → ℕ → ℝ) (e : ℝ)
    (y x : ℕ) : ℝ :=
  ifft2Re hs ws (freqSpectrum hs ws rand1 rand2 e) y x

/-- Maximum of a list of reals in the sense of `np.max`; meaningful only
for nonempty lists. -/
noncomputable def listMax : List ℝ → ℝ
  | [] => 0
  | a :: l => l.foldl max a

/-- Minimum of a list of reals in the sense of `np.min`; meaningful only
for nonempty lists. -/
noncomputable def listMin : List ℝ → ℝ
  | [] => 0
  | a :: l => l.foldl min a

/-- Row-major flattening of the `h` by `w` window of a 2D array. -/
def gridList (h w : ℕ) (v : ℕ → ℕ → ℝ) : List ℝ :=
  (List.range h).flatMap (fun y => (List.range w).map (fun x => v y x))

/-- Embedding of the min-max normalization step of
`FrequencyNoise._draw_samples` (src/imgaug/parameters.py lines
1505-1508). The source divides by `wn_inv_max - wn_inv_min` without a
guard; when the two are equal the IEEE division yields non-numbers
(NaN), modelled here as `none`. -/
noncomputable def normalize01 (h w : ℕ) (v : ℕ → ℕ → ℝ) :
    Option (ℕ → ℕ → ℝ) :=
  let m := listMin (gridList h w v)
  let M := listMax (gridList h w v)
  if M - m = 0 then none
  else some (fun y x => (v y x - m) / (M - m))

/-- Embedding of `FrequencyNoise._draw_samples` (src/imgaug/parameters.py
lines 1435-1518): asserts a 2D requested size, downscales to the working
grid with a floor of 4 pixels per side, builds the spectrum from the two
uniform fields, applies the inverse FFT, min-max normalizes, and when the
working grid differs from `(h, w)` converts to uint8, upscales with the
external primitive and divides by 255. The sampled `size_px_max`, the
two uniform fields, the sampled exponent and the sampled upscale method
are inputs. -/
noncomputable def frequencyNoiseDraw (resize : ResizeFn) (method : String)
    (size : List ℕ) (spm : ℕ) (rand1 rand2 : ℕ → ℕ → ℝ) (e : ℝ) :
    Except SampleError (Option (ℕ → ℕ → ℝ)) :=
  match size with
  | [h, w] =>
    let maxlen := max h w
    let hs := max (if spm < maxlen then h * spm / maxlen else h) 4
    let ws := max (if spm < maxlen then w * spm / maxlen else w) 4
    .ok ((normalize01 hs ws (freqWnInv hs ws rand1 rand2 e)).map (fun f =>
      if hs = h ∧ ws = w then f
      else fun y x =>
        (resize method h w (fun yy xx => ⌊f yy xx * 255⌋₊) y x : ℝ) / 255))
  | _ => .error .shapeError

/-- Equivalent of `np.clip(x, lo, hi)`, which numpy documents as
`np.minimum(hi, np.maximum(x, lo))`. -/
noncomputable def npClip (x lo hi : ℝ) : ℝ := min (max x lo) hi

/-- Embedding of `Deterministic._draw_samples` at a 1D size
(src/imgaug/parameters.py lines 499-500): an array filled with the
constant value. -/
def deterministicDrawList (v : ℝ) (n : ℕ) : List ℝ := List.replicate n v

/-- Embedding of `Clip._draw_samples` (src/imgaug/parameters.py lines
700-710) on a 1D sample array: with both bounds
`np.clip(samples, minval, maxval)`; with only `minval`,
`np.clip(samples, minval, np.max(samples))`; with only `maxval`,
`np.clip(samples, np.min(samples), maxval)`; with neither, the samples
pass through. -/
noncomputable def clipDrawSamples (minval maxval : Option ℝ)
    (samples : List ℝ) : List ℝ :=
  match minval, maxval with
  | some lo, some hi => samples.map (fun x => npClip x lo hi)
  | some lo, none => samples.map (fun x => npClip x lo (listMax samples))
  | none, some hi => samples.map (fun x => npClip x (listMin samples) hi)
  | none, none => samples

/-- The elementwise transform of `Sigmoid._draw_samples`
(src/imgaug/parameters.py line 995): the threshold is subtracted inside
the exponential. -/
noncomputable def sigmoidTransform (mul add threshold x : ℝ) : ℝ :=
  1 / (1 + Real.exp (-(x * mul + add - threshold)))

/-- Embedding of `Sigmoid._draw_samples` (src/imgaug/parameters.py lines
982-997): the child draw, the sampled `activated` gate and the sampled
`threshold` are inputs; the transform is applied when
`activated > 0.5`, otherwise the child draw passes through unchanged. -/
noncomputable def sigmoidDrawSamples (mul add : ℝ) (child : ℕ → ℕ → ℝ)
    (activated threshold : ℝ) : ℕ → ℕ → ℝ :=
  if activated > 0.5 then
    fun y x => sigmoidTransform mul add threshold (child y x)
  else child

/-- The `mul` and `add` configuration fields of a `Sigmoid` object. -/
structure SigmoidCfg where
  mul : ℝ
  add : ℝ

/-- Embedding of `Sigmoid.create_for_noise` (src/imgaug/parameters.py
lines 957-980): builds a Sigmoid with `mul = 20` and `add = -10`; the
given threshold and activation arguments pass through unchanged and do
not affect these two fields. -/
def sigmoidCreateForNoise (_threshold : PyArg) (_activated : ℚ) : SigmoidCfg :=
  { mul := 20, add := -10 }

/-- The seed value of a fold by max is below the fold. -/
theorem le_foldl_max {α : Type} [LinearOrder α] (l : List α) (b : α) :
    b ≤ l.foldl max b := by
  induction l generalizing b with
  | nil => exact le_refl b
  | cons a l ih => exact le_trans (le_max_left b a) (ih (max b a))

/-- Every member of a list is below its fold by max. -/
theorem mem_le_foldl_max {α : Type} [LinearOrder α] {l : List α} {x : α}
    (hx : x ∈ l) (b : α) : x ≤ l.foldl max b := by
  induction l generalizing b with
  | nil => cases hx
  | cons a l ih =>
    rcases List.mem_cons.mp hx with h | h
    · subst h
      exact le_trans (le_max_right b x) (le_foldl_max l (max b x))
    · exact ih h (max b a)

/-- A fold by max stays below any common upper bound. -/
theorem foldl_max_le {α : Type} [LinearOrder α] {l : List α} {b c : α}
    (hb : b ≤ c) (hl : ∀ x ∈ l, x ≤ c) : l.foldl max b ≤ c := by
  induction l generalizing b with
  | nil => exact hb
  | cons a l ih =>
    exact ih (max_le hb (hl a (List.mem_cons_self a l)))
      (fun x hx => hl x (List.mem_cons_of_mem a hx))

/-- The seed value of a fold by min is above the fold. -/
theorem foldl_min_le {α : Type} [LinearOrder α] (l : List α) (b : α) :
    l.foldl min b ≤ b := by
  induction l generalizing b with
  | nil => exact le_refl b
  | cons a l ih => exact le_trans (ih (min b a)) (min_le_left b a)

/-- Every member of a list is above its fold by min. -/
theorem foldl_min_le_mem {α : Type} [LinearOrder α] {l : List α} {x : α}
    (hx : x ∈ l) (b : α) : l.foldl min b ≤ x := by
  induction l generalizing b with
  | nil => cases hx
  | cons a l ih =>
    rcases List.mem_cons.mp hx with h | h
    · subst h
      exact le_trans (foldl_min_le l (min b x)) (min_le_right b x)
    · exact ih h (min b a)

/-- A fold by min stays above any common lower bound. -/
theorem le_foldl_min {α : Type} [LinearOrder α] {l : List α} {b c : α}
    (hb : c ≤ b) (hl : ∀ x ∈ l, c ≤ x) : c ≤ l.foldl min b := by
  induction l generalizing b with
  | nil => exact hb
  | cons a l ih =>
    exact ih (le_min hb (hl a (List.mem_cons_self a l)))
      (fun x hx => hl x (List.mem_cons_of_mem a hx))

/-- Every member of a list is below `listMax` of the list. -/
theorem le_listMax {l : List ℝ} {x : ℝ} (hx : x ∈ l) : x ≤ listMax l := by
  cases l with
  | nil => cases hx
  | cons a l =>
    rcases List.mem_cons.mp hx with h | h
    · subst h; exact le_foldl_max l x
    · exact mem_le_foldl_max h a

/-- `listMax` of a nonempty list stays below any common upper bound. -/
theorem listMax_le {l : List ℝ} {c : ℝ} (hne : l ≠ [])
    (h : ∀ x ∈ l, x ≤ c) : listMax l ≤ c := by
  cases l with
  | nil => exact absurd rfl hne
  | cons a l =>
    exact foldl_max_le (h a (List.mem_cons_self a l))
      (fun x hx => h x (List.mem_cons_of_mem a hx))

/-- `listMin` of a list is below every member. -/
theorem listMin_le {l : List ℝ} {x : ℝ} (hx : x ∈ l) : listMin l ≤ x := by
  cases l with
  | nil => cases hx
  | cons a l =>
    rcases List.mem_cons.mp hx with h | h
    · subst h; exact foldl_min_le l x
    · exact foldl_min_le_mem h a

/-- `listMin` of a nonempty list stays above any common lower bound. -/
theorem le_listMin {l : List ℝ} {c : ℝ} (hne : l ≠ [])
    (h : ∀ x ∈ l, c ≤ x) : c ≤ listMin l := by
  cases l with
  | nil => exact absurd rfl hne
  | cons a l =>
    exact le_foldl_min (h a (List.mem_cons_self a l))
      (fun x hx => h x (List.mem_cons_of_mem a hx))

/-- Every in-window cell value occurs in the flattened grid. -/
theorem mem_gridList {h w y x : ℕ} (hy : y < h) (hx : x < w)
    (v : ℕ → ℕ → ℝ) : v y x ∈ gridList h w v := by
  unfold gridList
  refine List.mem_flatMap.mpr ⟨y, List.mem_range.mpr hy, ?_⟩
  exact List.mem_map.mpr ⟨x, List.mem_range.mpr hx, rfl⟩

/-- Every element of the flattened grid is an in-window cell value. -/
theorem gridList_mem_elim {h w : ℕ} {v : ℕ → ℕ → ℝ} {t : ℝ}
    (ht : t ∈ gridList h w v) : ∃ y x, y < h ∧ x < w ∧ t = v y x := by
  unfold gridList at ht
  rcases List.mem_flatMap.mp ht with ⟨y, hy, hmem⟩
  rcases List.mem_map.mp hmem with ⟨x, hx, rfl⟩
  exact ⟨y, x, List.mem_range.mp hy, List.mem_range.mp hx, rfl⟩

/-- When the normalization succeeds, every in-window value of the
produced array lies in [0, 1]. -/
theorem normalize01_bounds {h w : ℕ} (hh : 0 < h) (hw : 0 < w)
    {v : ℕ → ℕ → ℝ} {f : ℕ → ℕ → ℝ} (hf : normalize01 h w v = some f)
    {y x : ℕ} (hy : y < h) (hx : x < w) : 0 ≤ f y x ∧ f y x ≤ 1 := by
  unfold normalize01 at hf
  by_cases hz : listMax (gridList h w v) - listMin (gridList h w v) = 0
  · simp [hz] at hf
  · simp only [hz, if_neg, ite_false] at hf
    have hmem0 : v 0 0 ∈ gridList h w v := mem_gridList hh hw v
    have hmm : listMin (gridList h w v) ≤ listMax (gridList h w v) :=
      le_trans (listMin_le hmem0) (le_listMax hmem0)
    have hlt : listMin (gridList h w v) < listMax (gridList h w v) := by
      rcases lt_or_eq_of_le hmm with hlt | heq
      · exact hlt
      · exact absurd (by rw [heq]; ring) hz
    have hmemyx : v y x ∈ gridList h w v := mem_gridList hy hx v
    have hlo : listMin (gridList h w v) ≤ v y x := listMin_le hmemyx
    have hhi : v y x ≤ listMax (gridList h w v) := le_listMax hmemyx
    have hfx : f y x = (v y x - listMin (gridList h w v)) /
        (listMax (gridList h w v) - listMin (gridList h w v)) := by
      rw [← Option.some.inj hf]
    constructor
    · rw [hfx]
      exact div_nonneg (by linarith) (by linarith)
    · rw [hfx]
      rw [div_le_one (by linarith)]
      linarith

/-- When the array is constant on the window, the divisor of the
normalization is zero and no numeric array is produced. -/
theorem normalize01_const {h w : ℕ} (hh : 0 < h) (hw : 0 < w)
    {v : ℕ → ℕ → ℝ} (hc : ∀ y, y < h → ∀ x, x < w → v y x = v 0 0) :
    normalize01 h w v = none := by
  have hne : gridList h w v ≠ [] :=
    List.ne_nil_of_mem (mem_gridList hh hw v)
  have hall : ∀ t ∈ gridList h w v, t = v 0 0 := by
    intro t ht
    rcases gridList_mem_elim ht with ⟨y, x, hy, hx, rfl⟩
    exact hc y hy x hx
  have hM : listMax (gridList h w v) = v 0 0 :=
    le_antisymm (listMax_le hne (fun t ht => le_of_eq (hall t ht)))
      (le_listMax (mem_gridList hh hw v))
  have hm : listMin (gridList h w v) = v 0 0 :=
    le_antisymm (listMin_le (mem_gridList hh hw v))
      (le_listMin hne (fun t ht => ge_of_eq (hall t ht)))
  unfold normalize01
  rw [hM, hm]
  simp

/-- With all-zero uniform fields the spectrum vanishes. -/
theorem freqSpectrum_zero (hs ws : ℕ) (e : ℝ) (u v : ℕ) :
    freqSpectrum hs ws (fun _ _ => 0) (fun _ _ => 0) e u v = 0 := by
  unfold freqSpectrum freqImag freqReal freqR
  simp [Complex.ext_iff]

/-- With all-zero uniform fields the inverse FFT output vanishes. -/
theorem freqWnInv_zero (hs ws : ℕ) (e : ℝ) (y x : ℕ) :
    freqWnInv hs ws (fun _ _ => 0) (fun _ _ => 0) e y x = 0 := by
  unfold freqWnInv ifft2Re
  have h : ∀ u v : ℕ,
      freqSpectrum hs ws (fun _ _ => 0) (fun _ _ => 0) e u v = 0 :=
    freqSpectrum_zero hs ws e
  simp [h]

/-- The avg branch of the aggregation loop accumulates a running sum. -/
theorem inaLoop_avg (draws : ℕ → ℕ → ℕ → ℝ) (n y x : ℕ) :
    inaLoop strAvg draws n y x = ∑ i ∈ Finset.range n, draws i y x := by
  induction n with
  | zero => simp [inaLoop]
  | succ m ih =>
    have hstep : inaLoop strAvg draws (m + 1) y x =
        inaLoop strAvg draws m y x + draws m y x := by
      show inaCombine strAvg m (inaLoop strAvg draws m) (draws m) y x = _
      unfold inaCombine
      rw [if_pos rfl]
    rw [hstep, ih, Finset.sum_range_succ]

/-- The min branch of the aggregation loop is the running minimum of the
draws, seeded by the first draw (the zero array never contributes). -/
theorem inaLoop_min (draws : ℕ → ℕ → ℕ → ℝ) (m y x : ℕ) :
    inaLoop strMin draws (m + 1) y x =
      ((List.range m).map (fun i => draws (i + 1) y x)).foldl min
        (draws 0 y x) := by
  induction m with
  | zero =>
    show inaCombine strMin 0 (inaLoop strMin draws 0) (draws 0) y x = _
    unfold inaCombine
    rw [if_neg (by decide), if_pos rfl, if_pos rfl]
    simp
  | succ k ih =>
    have hstep : inaLoop strMin draws (k + 2) y x =
        min (inaLoop strMin draws (k + 1) y x) (draws (k + 1) y x) := by
      show inaCombine strMin (k + 1) (inaLoop strMin draws (k + 1))
        (draws (k + 1)) y x = _
      unfold inaCombine
      rw [if_neg (by decide), if_pos rfl, if_neg (by omega)]
    rw [hstep, ih, List.range_succ, List.map_append, List.foldl_append]
    simp

/-- The max branch of the aggregation loop is the running maximum of the
draws, seeded by the first draw (the zero array never contributes). -/
theorem inaLoop_max (draws : ℕ → ℕ → ℕ → ℝ) (m y x : ℕ) :
    inaLoop strMax draws (m + 1) y x =
      ((List.range m).map (fun i => draws (i + 1) y x)).foldl max
        (draws 0 y x) := by
  induction m with
  | zero =>
    show inaCombine strMax 0 (inaLoop strMax draws 0) (draws 0) y x = _
    unfold inaCombine
    rw [if_neg (by decide), if_neg (by decide), if_pos rfl]
    simp
  | succ k ih =>
    have hstep : inaLoop strMax draws (k + 2) y x =
        max (inaLoop strMax draws (k + 1) y x) (draws (k + 1) y x) := by
      show inaCombine strMax (k + 1) (inaLoop strMax draws (k + 1))
        (draws (k + 1)) y x = _
      unfold inaCombine
      rw [if_neg (by decide), if_neg (by decide), if_neg (by omega)]
    rw [hstep, ih, List.range_succ, List.map_append, List.foldl_append]
    simp

/-- C2: the claim says a list given as `size_px_max` of `FrequencyNoise`
is normalized into a `Choice` child. The source instead raises a
`NameError` on the undefined name `sigmoid_thresh` in the guard of the
list branch (code bug), while the normalization pattern itself (constant
to Deterministic, 2-tuple to Uniform or DiscreteUniform, list to Choice)
does hold for `Poisson` and for the non-list branches of
`FrequencyNoise`. -/
theorem C2_freq_list_raises_name_error :
    frequencyNoiseInitSizePxMax (.list [4, 8, 16]) = .error .nameError
    ∧ poissonInitLam (.num 3) = .ok (.Deterministic 3)
    ∧ poissonInitLam (.tup [0, 2]) = .ok (.Uniform 0 2)
    ∧ poissonInitLam (.list [1, 2, 3]) = .ok (.Choice [1, 2, 3])
    ∧ frequencyNoiseInitSizePxMax (.int 8) = .ok (.Deterministic 8)
    ∧ frequencyNoiseInitSizePxMax (.tup [4, 32]) = .ok (.DiscreteUniform 4 32)
    ∧ frequencyNoiseInitSizePxMax (.param 0) = .error .nameError :=
  ⟨rfl, rfl, rfl, rfl, rfl, rfl, rfl⟩

/-- C4 counterexample: the claim says construction of
`FromLowerResolution` fails when both `size_percent` and `size_px` are
given; on the code it succeeds, taking the percent branch. -/
theorem C4_counterexample :
    fromLowerResolutionInit (some (.num (1 / 2))) (some (.int 8))
      = .ok (.percent (.Deterministic (1 / 2))) := rfl

/-- C4 (amended): construction fails exactly when neither size argument
is given; with a well-formed `size_percent` it succeeds whatever
`size_px` is (the latter is then ignored), and with only a well-formed
`size_px` it succeeds as well. -/
theorem C4_amended (p : ℚ) (x : ℤ) (spx : Option PyIntArg) :
    fromLowerResolutionInit none none = .error .assertionError
    ∧ fromLowerResolutionInit (some (.num p)) spx
        = .ok (.percent (.Deterministic p))
    ∧ fromLowerResolutionInit none (some (.int x))
        = .ok (.px (.Deterministic x)) := by
  refine ⟨rfl, ?_, rfl⟩
  cases spx <;> rfl

/-- C5 counterexample: 1001 lies in the claimed admissible range
1..10000, yet constructing `IterativeNoiseAggregator` with
`iterations = 1001` fails the `1 <= iterations <= 1000` assertion of the
single-integer branch. -/
theorem C5_counterexample :
    inaInitIterations (.int 1001) = .error .assertionError := rfl

/-- C5 (amended): a direct integer iteration count is accepted iff it
lies in 1..1000 (not 1..10000); a two-element tuple is accepted iff both
endpoints lie in 1..10000. -/
theorem C5_amended (n a b : ℤ) :
    ((∃ p, inaInitIterations (.int n) = .ok p) ↔ 1 ≤ n ∧ n ≤ 1000)
    ∧ ((∃ p, inaInitIterations (.tup [a, b]) = .ok p) ↔
        (1 ≤ a ∧ a ≤ 10000) ∧ (1 ≤ b ∧ b ≤ 10000)) := by
  constructor
  · constructor
    · rintro ⟨p, hp⟩
      by_cases hcond : 1 ≤ n ∧ n ≤ 1000
      · exact hcond
      · simp [inaInitIterations, hcond] at hp
    · intro hcond
      exact ⟨.Deterministic n, by simp [inaInitIterations, hcond]⟩
  · constructor
    · rintro ⟨p, hp⟩
      by_cases hcond : (1 ≤ a ∧ a ≤ 10000) ∧ (1 ≤ b ∧ b ≤ 10000)
      · exact hcond
      · simp [inaInitIterations, hcond] at hp
    · intro hcond
      exact ⟨.DiscreteUniform a b, by simp [inaInitIterations, hcond]⟩

/-- C6 counterexample: with only a lower bound, the claim says Clip
returns the elementwise maximum of the sample and `minval`; on the code,
`np.clip(samples, minval, np.max(samples))` caps at the sample maximum,
so `Clip(minval=10)` of the sample `[3]` returns `[3]` although
`max 3 10 = 10`. -/
theorem C6_counterexample :
    clipDrawSamples (some 10) none [3] = [3]
    ∧ max (3 : ℝ) 10 = 10 ∧ (3 : ℝ) ≠ 10 := by
  refine ⟨?_, by norm_num, by norm_num⟩
  show [npClip 3 10 (listMax [3])] = [3]
  unfold npClip listMax
  norm_num

/-- C6 (amended): with both bounds Clip clamps each element to
[minval, maxval]; with only `maxval` it is exactly the elementwise
minimum with `maxval`; with only `minval` it is the elementwise maximum
with `minval` provided `minval` does not exceed the sample maximum
(np.clip caps at its upper argument, so a larger `minval` collapses
every element to the sample maximum instead); the two concrete examples
of the claim hold. -/
theorem C6_amended (lo hi : ℝ) (samples : List ℝ) :
    (clipDrawSamples (some lo) (some hi) samples
        = samples.map (fun t => min (max t lo) hi))
    ∧ (lo ≤ hi → ∀ z ∈ clipDrawSamples (some lo) (some hi) samples,
        lo ≤ z ∧ z ≤ hi)
    ∧ (lo ≤ listMax samples →
        clipDrawSamples (some lo) none samples
          = samples.map (fun t => max t lo))
    ∧ (clipDrawSamples none (some hi) samples
        = samples.map (fun t => min t hi))
    ∧ clipDrawSamples (some 0) (some 5) (deterministicDrawList 10 1) = [5]
    ∧ clipDrawSamples (some 0) (some 5) (deterministicDrawList (-10) 1)
        = [0] := by
  refine ⟨rfl, ?_, ?_, ?_, ?_, ?_⟩
  · intro hlh z hz
    rcases List.mem_map.mp hz with ⟨t, _, rfl⟩
    exact ⟨le_min (le_max_right t lo) hlh, min_le_right _ _⟩
  · intro hle
    refine List.map_congr_left ?_
    intro t ht
    unfold npClip
    exact min_eq_left (max_le (le_listMax ht) hle)
  · refine List.map_congr_left ?_
    intro t ht
    unfold npClip
    rw [max_eq_left (listMin_le ht)]
  · show [npClip 10 0 5] = [5]
    unfold npClip
    norm_num
  · show [npClip (-10) 0 5] = [0]
    unfold npClip
    norm_num

/-- C6 witness: instantiating the amended minval-only case at the
one-element sample `[3]` with `minval = 0`. -/
theorem C6_amended_witness :
    clipDrawSamples (some 0) none [3] = [max (3 : ℝ) 0] := by
  have h := (C6_amended 0 5 [3]).2.2.1 (by
    unfold listMax
    norm_num)
  simpa using h

/-- C7: when the sampled activation gate exceeds 0.5, the output of
`Sigmoid._draw_samples` is elementwise
`1 / (1 + exp(-(x * mul + add - threshold)))` (the threshold is
subtracted); otherwise the child sample passes through unchanged; and
`create_for_noise` presets `mul = 20` and `add = -10`. -/
theorem C7_sigmoid (mul add activated threshold : ℝ) (child : ℕ → ℕ → ℝ)
    (t : PyArg) (a : ℚ) :
    (activated > 0.5 →
      sigmoidDrawSamples mul add child activated threshold
        = fun y x =>
            1 / (1 + Real.exp (-(child y x * mul + add - threshold))))
    ∧ (¬ activated > 0.5 →
        sigmoidDrawSamples mul add child activated threshold = child)
    ∧ (sigmoidCreateForNoise t a).mul = 20
    ∧ (sigmoidCreateForNoise t a).add = -10 := by
  refine ⟨fun hg => ?_, fun hg => ?_, rfl, rfl⟩
  · unfold sigmoidDrawSamples sigmoidTransform
    rw [if_pos hg]
  · unfold sigmoidDrawSamples
    rw [if_neg hg]

/-- C7 witness: the active gate at a concrete configuration. -/
theorem C7_sigmoid_witness :
    sigmoidDrawSamples 1 0 (fun _ _ => 0) 1 0
      = fun _ _ => 1 / (1 + Real.exp (-(0 * 1 + 0 - 0))) :=
  (C7_sigmoid 1 0 1 0 (fun _ _ => 0) (.num 0) 0).1 (by norm_num)

/-- C8: the avg method returns the elementwise sum of the per-iteration
draws divided by the iteration count; the min and max methods are the
running extremum seeded by the first draw (the zero initialization never
contributes); and aggregating the constant draw 1.0 over 5 iterations
with avg at shape (4, 4) yields the all-ones array. -/
theorem C8_aggregator (draws : ℕ → ℕ → ℕ → ℝ) (n h w y x : ℕ)
    (hn : 0 < n) :
    inaDrawSamples strAvg n draws [h, w]
      = .ok (fun y x => (∑ i ∈ Finset.range n, draws i y x) / n)
    ∧ inaLoop strMin draws n y x
      = ((List.range (n - 1)).map (fun i => draws (i + 1) y x)).foldl min
          (draws 0 y x)
    ∧ inaLoop strMax draws n y x
      = ((List.range (n - 1)).map (fun i => draws (i + 1) y x)).foldl max
          (draws 0 y x)
    ∧ inaDrawSamples strAvg 5 (fun _ _ _ => 1) [4, 4]
        = .ok (fun _ _ => 1) := by
  obtain ⟨m, rfl⟩ : ∃ m, n = m + 1 :=
    ⟨n - 1, (Nat.succ_pred_eq_of_pos hn).symm⟩
  refine ⟨?_, ?_, ?_, ?_⟩
  · have h1 : inaDrawSamples strAvg (m + 1) draws [h, w]
        = .ok (fun y x =>
            inaLoop strAvg draws (m + 1) y x / ((m + 1 : ℕ) : ℝ)) := by
      simp [inaDrawSamples]
    rw [h1]
    congr 1
    funext yy xx
    rw [inaLoop_avg]
  · simpa using inaLoop_min draws m y x
  · simpa using inaLoop_max draws m y x
  · have h1 : inaDrawSamples strAvg 5 (fun _ _ _ => (1 : ℝ)) [4, 4]
        = .ok (fun y x =>
            inaLoop strAvg (fun _ _ _ => 1) 5 y x / ((5 : ℕ) : ℝ)) := by
      simp [inaDrawSamples]
    rw [h1]
    congr 1
    funext yy xx
    rw [inaLoop_avg]
    norm_num

/-- C8 witness: the concrete all-ones instance of the claim. -/
theorem C8_aggregator_witness :
    inaDrawSamples strAvg 5 (fun _ _ _ => 1) [4, 4] = .ok (fun _ _ => 1) :=
  (C8_aggregator (fun _ _ _ => 1) 5 4 4 0 0 (by norm_num)).2.2.2

/-- C9: the three noise samplers fail with a ShapeError exactly on
requested shapes that are not rank 2, and accept every 2D shape (for the
aggregator, given the drawn iteration count is positive, as its own
assertion demands). -/
theorem C9_shape_gate (resize : ResizeFn) (noise2d : ℕ → ℕ → ℝ)
    (m1 m2 m3 : String) (draws : ℕ → ℕ → ℕ → ℝ) (iters : ℕ)
    (size : List ℕ) (spm : ℕ) (rand1 rand2 : ℕ → ℕ → ℝ) (e : ℝ)
    (hi : 0 < iters) :
    (size.length ≠ 2 →
        simplexNoiseDraw resize noise2d m1 size spm = .error .shapeError
      ∧ frequencyNoiseDraw resize m2 size spm rand1 rand2 e
          = .error .shapeError
      ∧ inaDrawSamples m3 iters draws size = .error .shapeError)
    ∧ (size.length = 2 →
        (∃ f, simplexNoiseDraw resize noise2d m1 size spm = .ok f)
      ∧ (∃ o, frequencyNoiseDraw resize m2 size spm rand1 rand2 e = .ok o)
      ∧ (∃ f, inaDrawSamples m3 iters draws size = .ok f)) := by
  match size with
  | [] => exact ⟨fun _ => ⟨rfl, rfl, rfl⟩, fun hlen => by simp at hlen⟩
  | [_] => exact ⟨fun _ => ⟨rfl, rfl, rfl⟩, fun hlen => by simp at hlen⟩
  | _ :: _ :: _ :: _ =>
    exact ⟨fun _ => ⟨rfl, rfl, rfl⟩, fun hlen => by simp at hlen⟩
  | [a, b] =>
    refine ⟨fun hlen => absurd rfl hlen,
      fun _ => ⟨⟨_, rfl⟩, ⟨_, rfl⟩, ?_⟩⟩
    unfold inaDrawSamples
    rw [if_neg (by omega)]
    by_cases hm : m3 = strAvg
    · rw [if_pos hm]
      exact ⟨_, rfl⟩
    · rw [if_neg hm]
      exact ⟨_, rfl⟩

/-- C9 witness: a 1D request fails with a ShapeError, and a 2D request is
accepted, at concrete inputs. -/
theorem C9_shape_gate_witness :
    simplexNoiseDraw (fun _ _ _ _ _ _ => 0) (fun _ _ => 0) strNearest [3] 4
      = .error .shapeError :=
  ((C9_shape_gate (fun _ _ _ _ _ _ => 0) (fun _ _ => 0) strNearest
    strNearest strNearest (fun _ _ _ => 0) 1 [3] 4 (fun _ _ => 0)
    (fun _ _ => 0) 1 (by norm_num)).1 (by norm_num)).1

/-- C10: the min-max normalization of `FrequencyNoise._draw_samples`
divides by max minus min without a guard; whenever the inverse-FFT
output is non-constant on the working grid the division is well defined
and every in-window value lies in [0, 1]; when the output is constant
the divisor is zero and no numeric array results. -/
theorem C10_normalization (h w : ℕ) (v : ℕ → ℕ → ℝ) (hh : 0 < h)
    (hw : 0 < w) :
    (listMin (gridList h w v) < listMax (gridList h w v) →
        normalize01 h w v
          = some (fun y x => (v y x - listMin (gridList h w v)) /
              (listMax (gridList h w v) - listMin (gridList h w v)))
      ∧ ∀ y, y < h → ∀ x, x < w →
          0 ≤ (v y x - listMin (gridList h w v)) /
              (listMax (gridList h w v) - listMin (gridList h w v))
          ∧ (v y x - listMin (gridList h w v)) /
              (listMax (gridList h w v) - listMin (gridList h w v)) ≤ 1)
    ∧ ((∀ y, y < h → ∀ x, x < w → v y x = v 0 0) →
        normalize01 h w v = none) := by
  constructor
  · intro hlt
    have hne : ¬ (listMax (gridList h w v) - listMin (gridList h w v)
        = 0) := by
      intro h0
      have : listMax (gridList h w v) = listMin (gridList h w v) := by
        linarith
      rw [this] at hlt
      exact lt_irrefl _ hlt
    have heq : normalize01 h w v
        = some (fun y x => (v y x - listMin (gridList h w v)) /
            (listMax (gridList h w v) - listMin (gridList h w v))) := by
      unfold normalize01
      simp [hne]
    refine ⟨heq, ?_⟩
    intro y hy x hx
    exact normalize01_bounds hh hw heq hy hx
  · exact normalize01_const hh hw

/-- C10 witness: the constant zero field at the 2 by 2 grid produces no
numeric array. -/
theorem C10_normalization_witness :
    normalize01 2 2 (fun _ _ => (0 : ℝ)) = none :=
  (C10_normalization 2 2 (fun _ _ => 0) (by norm_num) (by norm_num)).2
    (fun _ _ _ _ => rfl)

/-- C3: at the 4 by 4 working grid with uniform draws 1/16 and 1/4 the
magnitude field is r = 1 and the phase field is a = pi / 2; the
imaginary component computed by lines 1466-1467 of the source is
`(r * cos a) * sin a = 0` because line 1466 overwrote the magnitude,
while the claimed `r * sin a` equals 1. -/
theorem C3_imag_uses_overwritten_r :
    freqImag 4 4 (fun _ _ => 1 / 16) (fun _ _ => 1 / 4) 0 0 = 0
    ∧ freqR 4 4 (fun _ _ => 1 / 16) 0 0 *
        Real.sin (freqA (fun _ _ => 1 / 4) 0 0) = 1 := by
  have ha : freqA (fun _ _ => (1 / 4 : ℝ)) 0 0 = Real.pi / 2 := by
    unfold freqA
    ring
  constructor
  · unfold freqImag freqReal
    rw [ha, Real.cos_pi_div_two]
    ring
  · unfold freqR
    rw [ha, Real.sin_pi_div_two]
    norm_num [max_self]

/-- Bounds for a branch between two pointwise bounded arrays. -/
theorem ite_fun_bounds {c : Prop} [Decidable c] (f g : ℕ → ℕ → ℝ) (y x : ℕ)
    (hf : 0 ≤ f y x ∧ f y x ≤ 1) (hg : 0 ≤ g y x ∧ g y x ≤ 1) :
    0 ≤ (if c then f else g) y x ∧ (if c then f else g) y x ≤ 1 := by
  by_cases hcc : c
  · rw [if_pos hcc]
    exact hf
  · rw [if_neg hcc]
    exact hg

/-- Under the modelled generator range and uint8 resize contract, every
value of a simplex iteration lies in [0, 1]. -/
theorem simplexIteration_bounds (resize : ResizeFn) (noise2d : ℕ → ℕ → ℝ)
    (method : String) (h w spm : ℕ) (hres : ResizeUint8 resize)
    (hn : SimplexRange noise2d) (y x : ℕ) :
    0 ≤ simplexIteration resize noise2d method h w spm y x
    ∧ simplexIteration resize noise2d method h w spm y x ≤ 1 := by
  unfold simplexIteration
  refine ite_fun_bounds _ _ y x ⟨?_, ?_⟩ ⟨?_, ?_⟩
  · show 0 ≤ (noise2d y x + 1 / 2) / 2
    obtain ⟨hlo, hhi⟩ := hn y x
    linarith
  · show (noise2d y x + 1 / 2) / 2 ≤ 1
    obtain ⟨hlo, hhi⟩ := hn y x
    linarith
  · show 0 ≤ ((resize method h w
        (fun yy xx => ⌊(noise2d yy xx + 1 / 2) / 2 * 255⌋₊) y x : ℕ) : ℝ) / 255
    positivity
  · show ((resize method h w
        (fun yy xx => ⌊(noise2d yy xx + 1 / 2) / 2 * 255⌋₊) y x : ℕ) : ℝ) / 255 ≤ 1
    have hle := hres method h w
        (fun yy xx => ⌊(noise2d yy xx + 1 / 2) / 2 * 255⌋₊) y x
    rw [div_le_one (by norm_num)]
    exact_mod_cast hle

/-- The aggregation skeleton with one iteration and the max method is
the single iteration draw. -/
theorem inaLoop_one (draws : ℕ → ℕ → ℕ → ℝ) :
    inaLoop strMax draws 1 = draws 0 := by
  show inaCombine strMax 0 (inaLoop strMax draws 0) (draws 0) = draws 0
  unfold inaCombine
  rw [if_neg (by decide), if_neg (by decide), if_pos rfl]

/-- C1 counterexample: at the valid 2D shape (4, 4) with the all-zero
uniform fields (a value the seeded random source may produce), the
inverse FFT output is constant, the normalization divides by zero, and
the draw returns no numeric array at all, in particular no array of
values inside [0, 1]. -/
theorem C1_freq_constant_field_yields_no_array :
    frequencyNoiseDraw (fun _ _ _ _ _ _ => 0) strNearest [4, 4] 4
      (fun _ _ => 0) (fun _ _ => 0) 1 = .ok none := by
  have hnorm : normalize01 4 4
      (freqWnInv 4 4 (fun _ _ => 0) (fun _ _ => 0) 1) = none :=
    normalize01_const (by norm_num) (by norm_num)
      (fun y _ x _ => by rw [freqWnInv_zero, freqWnInv_zero])
  simp only [frequencyNoiseDraw, Nat.max_self, lt_self_iff_false,
    if_false, ite_false]
  rw [hnorm]
  rfl

/-- C1 (amended): with the spec-modelled OpenSimplex range and the uint8
resize contract, every array returned by `SimplexNoise._draw_samples`
lies within [0, 1]; every numeric array returned by
`FrequencyNoise._draw_samples` lies within [0, 1] on its window, which
happens exactly when the unguarded min-max normalization has a nonzero
divisor, i.e. when the inverse-FFT output on the working grid is not
constant (otherwise no numeric array is produced, see the
counterexample). -/
theorem C1_amended (resize : ResizeFn) (noise2d : ℕ → ℕ → ℝ)
    (method : String) (hres : ResizeUint8 resize) (hn : SimplexRange noise2d)
    (h w spm : ℕ) (rand1 rand2 : ℕ → ℕ → ℝ) (e : ℝ) :
    (∀ f, simplexNoiseDraw resize noise2d method [h, w] spm = .ok f →
        ∀ y x, 0 ≤ f y x ∧ f y x ≤ 1)
    ∧ (∀ f, frequencyNoiseDraw resize method [h, w] spm rand1 rand2 e
          = .ok (some f) →
        ∀ y, y < h → ∀ x, x < w → 0 ≤ f y x ∧ f y x ≤ 1) := by
  constructor
  · intro f hf y x
    have h1 : simplexNoiseDraw resize noise2d method [h, w] spm
        = .ok (inaLoop strMax
            (fun _ => simplexIteration resize noise2d method h w spm) 1) :=
      rfl
    rw [h1, inaLoop_one] at hf
    rw [← Except.ok.inj hf]
    exact simplexIteration_bounds resize noise2d method h w spm hres hn y x
  · intro f hf y hy x hx
    have h1 : frequencyNoiseDraw resize method [h, w] spm rand1 rand2 e
        = .ok ((normalize01
            (max (if spm < max h w then h * spm / max h w else h) 4)
            (max (if spm < max h w then w * spm / max h w else w) 4)
            (freqWnInv
              (max (if spm < max h w then h * spm / max h w else h) 4)
              (max (if spm < max h w then w * spm / max h w else w) 4)
              rand1 rand2 e)).map (fun f0 =>
          if (max (if spm < max h w then h * spm / max h w else h) 4 = h
              ∧ max (if spm < max h w then w * spm / max h w else w) 4 = w)
          then f0
          else fun yy xx =>
            (resize method h w (fun a b => ⌊f0 a b * 255⌋₊) yy xx : ℝ)
              / 255)) := rfl
    rw [h1] at hf
    have h2 := Except.ok.inj hf
    rcases Option.map_eq_some'.mp h2 with ⟨f0, hf0, hgf⟩
    have hHS : 0 < max (if spm < max h w then h * spm / max h w else h) 4 :=
      lt_of_lt_of_le (by norm_num) (le_max_right _ 4)
    have hWS : 0 < max (if spm < max h w then w * spm / max h w else w) 4 :=
      lt_of_lt_of_le (by norm_num) (le_max_right _ 4)
    by_cases hc : (max (if spm < max h w then h * spm / max h w else h) 4 = h
        ∧ max (if spm < max h w then w * spm / max h w else w) 4 = w)
    · rw [if_pos hc] at hgf
      subst hgf
      exact normalize01_bounds hHS hWS hf0 (by rw [hc.1]; exact hy)
        (by rw [hc.2]; exact hx)
    · rw [if_neg hc] at hgf
      subst hgf
      constructor
      · positivity
      · have hle := hres method h w (fun a b => ⌊f0 a b * 255⌋₊) y x
        rw [div_le_one (by norm_num)]
        exact_mod_cast hle

/-- C1 witness: the amended simplex bound applied at a concrete input
that takes the upscale branch with a constant-zero resize primitive. -/
theorem C1_amended_witness :
    0 ≤ ((0 : ℕ) : ℝ) / 255 ∧ ((0 : ℕ) : ℝ) / 255 ≤ 1 :=
  (C1_amended (fun _ _ _ _ _ _ => 0) (fun _ _ => 0) strNearest
    (fun _ _ _ _ _ _ => by norm_num) (fun _ _ => by norm_num)
    100 100 4 (fun _ _ => 0) (fun _ _ => 0) 1).1
    (fun _ _ => ((0 : ℕ) : ℝ) / 255) rfl 0 0
